import Mathlib

/-!
Verification of the transfer path-resolution core and the HTTP base client of
this repository.  The path search, ranking pipeline and submission coordinator
are modelled from the specification (their code lives outside this tree; only
their tests are present), while the base client definitions are translated
directly from lib/rucio/client/baseclient.py.
-/

namespace Rucio

/-! ## Generic lexicographic comparison and insertion sort -/

/-- One lexicographic comparison level: a strictly smaller component wins, a
strictly greater one loses, and ties defer to the next level k. -/
def ltStep {α : Type} [LinearOrder α] (x y : α) (k : Bool) : Bool :=
  if x < y then true else if y < x then false else k

theorem ltStep_self {α : Type} [LinearOrder α] (x : α) (k : Bool) :
    ltStep x x k = k := by
  simp [ltStep]

theorem ltStep_trans {α : Type} [LinearOrder α] {x y z : α} {k1 k2 k3 : Bool}
    (hk : k1 = true → k2 = true → k3 = true) :
    ltStep x y k1 = true → ltStep y z k2 = true → ltStep x z k3 = true := by
  intro h1 h2
  unfold ltStep at h1 h2 ⊢
  rcases lt_trichotomy x y with hxy | hxy | hxy
  · rcases lt_trichotomy y z with hyz | hyz | hyz
    · simp [hxy.trans hyz]
    · subst hyz; simp [hxy]
    · simp [hyz.asymm, hyz] at h2
  · subst hxy
    simp [lt_irrefl] at h1
    rcases lt_trichotomy x z with hxz | hxz | hxz
    · simp [hxz]
    · subst hxz
      simp [lt_irrefl] at h2 ⊢
      exact hk h1 h2
    · simp [hxz.asymm, hxz] at h2
  · simp [hxy.asymm, hxy] at h1

theorem ltStep_total {α : Type} [LinearOrder α] {x y : α} {k1 k2 : Bool}
    (hk : k1 = true ∨ k2 = true) :
    ltStep x y k1 = true ∨ ltStep y x k2 = true := by
  unfold ltStep
  rcases lt_trichotomy x y with hxy | hxy | hxy
  · left; simp [hxy]
  · subst hxy
    simpa using hk
  · right; simp [hxy]

/-- Insertion of an element into a list maintained in nondecreasing order for
the boolean comparison le. -/
def insertBy {α : Type} (le : α → α → Bool) (x : α) : List α → List α
  | [] => [x]
  | y :: ys => if le x y then x :: y :: ys else y :: insertBy le x ys

/-- Insertion sort by the boolean comparison le. -/
def sortBy {α : Type} (le : α → α → Bool) (l : List α) : List α :=
  l.foldr (insertBy le) []

theorem mem_insertBy {α : Type} (le : α → α → Bool) (x : α) (l : List α) (a : α) :
    a ∈ insertBy le x l ↔ a = x ∨ a ∈ l := by
  induction l with
  | nil => simp [insertBy]
  | cons y ys ih =>
      by_cases h : le x y = true
      · simp [insertBy, h]
      · simp only [insertBy, h]
        simp [ih]
        tauto

theorem insertBy_perm {α : Type} (le : α → α → Bool) (x : α) (l : List α) :
    (insertBy le x l).Perm (x :: l) := by
  induction l with
  | nil => simp [insertBy]
  | cons y ys ih =>
      by_cases h : le x y = true
      · simp [insertBy, h]
      · have step1 : (y :: insertBy le x ys).Perm (y :: x :: ys) := List.Perm.cons y ih
        have step2 : (y :: x :: ys).Perm (x :: y :: ys) := List.Perm.swap x y ys
        simpa [insertBy, h] using step1.trans step2

theorem sortBy_perm {α : Type} (le : α → α → Bool) (l : List α) :
    (sortBy le l).Perm l := by
  induction l with
  | nil => simp [sortBy]
  | cons y ys ih =>
      have step1 : (insertBy le y (sortBy le ys)).Perm (y :: sortBy le ys) :=
        insertBy_perm le y (sortBy le ys)
      exact step1.trans (List.Perm.cons y ih)

theorem mem_sortBy {α : Type} (le : α → α → Bool) (l : List α) (a : α) :
    a ∈ sortBy le l ↔ a ∈ l := (sortBy_perm le l).mem_iff

theorem pairwise_insertBy {α : Type} {le : α → α → Bool}
    (htot : ∀ a b, (le a b || le b a) = true)
    (htrans : ∀ a b c, le a b = true → le b c = true → le a c = true)
    {l : List α} (hl : l.Pairwise (fun a b => le a b = true)) (x : α) :
    (insertBy le x l).Pairwise (fun a b => le a b = true) := by
  induction l with
  | nil => simp [insertBy]
  | cons y ys ih =>
      rcases List.pairwise_cons.mp hl with ⟨hy, hys⟩
      by_cases h : le x y = true
      · have goal : (x :: y :: ys).Pairwise (fun a b => le a b = true) := by
          refine List.pairwise_cons.mpr ⟨?_, hl⟩
          intro b hb
          rcases List.mem_cons.mp hb with hb | hb
          · exact hb ▸ h
          · exact htrans x y b h (hy b hb)
        simpa [insertBy, h] using goal
      · have hyx : le y x = true := by
          have := htot x y
          simp [h] at this
          exact this
        have goal : (y :: insertBy le x ys).Pairwise (fun a b => le a b = true) := by
          refine List.pairwise_cons.mpr ⟨?_, ih hys⟩
          intro b hb
          rcases (mem_insertBy le x ys b).mp hb with hb | hb
          · exact hb ▸ hyx
          · exact hy b hb
        simpa [insertBy, h] using goal

theorem pairwise_sortBy {α : Type} {le : α → α → Bool}
    (htot : ∀ a b, (le a b || le b a) = true)
    (htrans : ∀ a b c, le a b = true → le b c = true → le a c = true)
    (l : List α) :
    (sortBy le l).Pairwise (fun a b => le a b = true) := by
  induction l with
  | nil => simp [sortBy]
  | cons y ys ih => exact pairwise_insertBy htot htrans ih y

theorem sortBy_head_le {α : Type} {le : α → α → Bool}
    (htot : ∀ a b, (le a b || le b a) = true)
    (htrans : ∀ a b c, le a b = true → le b c = true → le a c = true)
    {l : List α} {x : α} {xs : List α} (h : sortBy le l = x :: xs) :
    ∀ y ∈ l, le x y = true := by
  intro y hy
  have hmem : y ∈ x :: xs := h ▸ (mem_sortBy le l y).mpr hy
  rcases List.mem_cons.mp hmem with hyx | hyxs
  · subst hyx
    have := htot y y
    simpa using this
  · have hp := @pairwise_sortBy _ le htot htrans l
    rw [h] at hp
    exact (List.pairwise_cons.mp hp).1 y hyxs

/-! ## Endpoint graph and path search -/

/-- Modelled from the spec: the Topology of a resolution cycle — the set of
endpoint identifiers plus the directed edge-cost table (rucio.core.topology is
not part of this tree).  A cost of 0 stands for an undefined or zero distance,
which the spec equates with an absent edge. -/
structure Topology where
  nodes : List Nat
  cost : Nat → Nat → Nat

/-- Modelled from the spec: consecutive hops of a path may only traverse edges
whose cost is defined and nonzero. -/
def chainOk (t : Topology) : List Nat → Bool
  | [] => true
  | [_] => true
  | a :: b :: rest => (decide (0 < t.cost a b)) && chainOk t (b :: rest)

/-- Intermediate endpoints of a path: everything but the first and the last. -/
def intermediates (p : List Nat) : List Nat := (p.drop 1).dropLast

/-- Modelled from the spec: a candidate path for Path Search — an ordered,
cycle-free node chain from the source to the destination, traversing only
present (nonzero-cost) edges and using only multihop-allowed endpoints as
intermediate nodes. -/
def validPath (t : Topology) (allowed : Nat → Bool) (s d : Nat) (p : List Nat) : Bool :=
  decide (2 ≤ p.length) && (p.head? == some s) && (p.getLast? == some d) &&
    decide p.Nodup && p.all (fun x => decide (x ∈ t.nodes)) &&
    chainOk t p && (intermediates p).all allowed

/-- Sum of the edge costs along a node chain. -/
def edgeSum (t : Topology) : List Nat → Nat
  | [] => 0
  | [_] => 0
  | a :: b :: rest => t.cost a b + edgeSum t (b :: rest)

/-- Modelled from the spec: total cost of a candidate path — the summed edge
costs plus a fixed penalty for every hop beyond the first. -/
def pathCost (t : Topology) (penalty : Nat) (p : List Nat) : Nat :=
  edgeSum t p + penalty * (p.length - 2)

/-- Deterministic endpoint-id ordering on node chains (lexicographic). -/
def listLe : List Nat → List Nat → Bool
  | [], _ => true
  | _ :: _, [] => false
  | a :: as, b :: bs => ltStep a b (listLe as bs)

/-- Modelled from the spec: the path-search preference order — total cost
first, then fewer hops, then the deterministic endpoint-id ordering. -/
def pathLe (t : Topology) (penalty : Nat) (p q : List Nat) : Bool :=
  ltStep (pathCost t penalty p) (pathCost t penalty q)
    (ltStep p.length q.length (listLe p q))

/-- All node sequences of the given length over the given node set. -/
def allSeqs (xs : List Nat) : Nat → List (List Nat)
  | 0 => [[]]
  | n + 1 => (allSeqs xs n).flatMap (fun p => xs.map (fun x => x :: p))

/-- Modelled from the spec: every candidate path between a source and a
destination under the current multihop policy. -/
def candidatePaths (t : Topology) (allowed : Nat → Bool) (s d : Nat) : List (List Nat) :=
  ((List.range (t.nodes.length + 1)).flatMap (fun k => allSeqs t.nodes k)).filter
    (validPath t allowed s d)

/-- Modelled from the spec: get_hops of rucio.core.topology — the cheapest
candidate path under the hop-penalty cost, ties broken by fewer hops and then
by the deterministic id order; none models the NoDistance / NoPathError
failure when source and destination are disconnected. -/
def get_hops (t : Topology) (penalty : Nat) (allowed : Nat → Bool) (s d : Nat) :
    Option (List Nat) :=
  (sortBy (pathLe t penalty) (candidatePaths t allowed s d)).head?

/-- Hops (source endpoint, destination endpoint per segment) of a node chain. -/
def hopsOf (p : List Nat) : List (Nat × Nat) := p.zip (p.drop 1)

/-- Modelled from the spec: the per-request layer invokes Path Search once per
candidate source and silently drops the sources with no path. -/
def build_paths_for_sources (t : Topology) (penalty : Nat) (allowed : Nat → Bool)
    (srcs : List Nat) (d : Nat) : List (Nat × List Nat) :=
  srcs.filterMap (fun s => (get_hops t penalty allowed s d).map (fun p => (s, p)))

theorem listLe_total (p q : List Nat) : (listLe p q || listLe q p) = true := by
  induction p generalizing q with
  | nil => simp [listLe]
  | cons a as ih =>
      cases q with
      | nil => simp [listLe]
      | cons b bs =>
          simp only [listLe]
          rcases @ltStep_total _ _ a b _ _ (Bool.or_eq_true _ _ |>.mp (ih bs)) with h | h
          · simp [h]
          · simp [h]

theorem listLe_trans (p q r : List Nat) :
    listLe p q = true → listLe q r = true → listLe p r = true := by
  induction p generalizing q r with
  | nil => intro _ _; simp [listLe]
  | cons a as ih =>
      cases q with
      | nil => intro h; simp [listLe] at h
      | cons b bs =>
          cases r with
          | nil => intro _ h; simp [listLe] at h
          | cons c cs =>
              simp only [listLe]
              exact fun h1 h2 => ltStep_trans (ih bs cs) h1 h2

theorem pathLe_total (t : Topology) (penalty : Nat) (p q : List Nat) :
    (pathLe t penalty p q || pathLe t penalty q p) = true := by
  unfold pathLe
  refine Bool.or_eq_true _ _ |>.mpr (ltStep_total (ltStep_total ?_))
  exact Bool.or_eq_true _ _ |>.mp (listLe_total p q)

theorem pathLe_trans (t : Topology) (penalty : Nat) (p q r : List Nat) :
    pathLe t penalty p q = true → pathLe t penalty q r = true →
    pathLe t penalty p r = true := by
  unfold pathLe
  exact ltStep_trans (ltStep_trans (listLe_trans p q r))

theorem validPath_iff (t : Topology) (allowed : Nat → Bool) (s d : Nat) (p : List Nat) :
    validPath t allowed s d p = true ↔
      2 ≤ p.length ∧ p.head? = some s ∧ p.getLast? = some d ∧ p.Nodup ∧
      (∀ x ∈ p, x ∈ t.nodes) ∧ chainOk t p = true ∧
      (∀ x ∈ intermediates p, allowed x = true) := by
  simp [validPath, List.all_eq_true, and_assoc]

theorem mem_allSeqs (xs : List Nat) (n : Nat) (p : List Nat) :
    p ∈ allSeqs xs n ↔ p.length = n ∧ ∀ x ∈ p, x ∈ xs := by
  induction n generalizing p with
  | zero => cases p <;> simp [allSeqs]
  | succ n ih =>
      simp only [allSeqs, List.mem_flatMap, List.mem_map]
      constructor
      · rintro ⟨q, hq, x, hx, rfl⟩
        rcases (ih q).mp hq with ⟨hlen, hmem⟩
        refine ⟨by simp [hlen], ?_⟩
        intro y hy
        rcases List.mem_cons.mp hy with rfl | hy
        · exact hx
        · exact hmem y hy
      · rintro ⟨hlen, hmem⟩
        cases p with
        | nil => simp at hlen
        | cons x q =>
            exact ⟨q, (ih q).mpr ⟨by simpa using hlen,
              fun y hy => hmem y (List.mem_cons_of_mem _ hy)⟩,
              x, hmem x (List.mem_cons_self _ _), rfl⟩

theorem mem_candidatePaths (t : Topology) (allowed : Nat → Bool) (s d : Nat) (p : List Nat) :
    p ∈ candidatePaths t allowed s d ↔ validPath t allowed s d p = true := by
  constructor
  · intro h
    exact (List.mem_filter.mp h).2
  · intro h
    refine List.mem_filter.mpr ⟨?_, h⟩
    rcases (validPath_iff t allowed s d p).mp h with ⟨_, _, _, hnd, hsub, _, _⟩
    refine List.mem_flatMap.mpr ⟨p.length, ?_, (mem_allSeqs _ _ _).mpr ⟨rfl, hsub⟩⟩
    refine List.mem_range.mpr (Nat.lt_succ_of_le ?_)
    exact (List.subperm_of_subset hnd fun x hx => hsub x hx).length_le

theorem get_hops_some_valid (t : Topology) (penalty : Nat) (allowed : Nat → Bool)
    (s d : Nat) (p : List Nat) (h : get_hops t penalty allowed s d = some p) :
    validPath t allowed s d p = true := by
  unfold get_hops at h
  rcases hs : sortBy (pathLe t penalty) (candidatePaths t allowed s d) with _ | ⟨x, xs⟩
  · rw [hs] at h; simp at h
  · rw [hs] at h
    simp only [List.head?_cons, Option.some.injEq] at h
    have hx : x ∈ sortBy (pathLe t penalty) (candidatePaths t allowed s d) := by
      rw [hs]; exact List.mem_cons_self _ _
    have hvx := (mem_candidatePaths t allowed s d x).mp ((mem_sortBy _ _ _).mp hx)
    rwa [h] at hvx

theorem get_hops_min (t : Topology) (penalty : Nat) (allowed : Nat → Bool)
    (s d : Nat) (p : List Nat) (h : get_hops t penalty allowed s d = some p)
    (q : List Nat) (hq : validPath t allowed s d q = true) :
    pathLe t penalty p q = true := by
  unfold get_hops at h
  rcases hs : sortBy (pathLe t penalty) (candidatePaths t allowed s d) with _ | ⟨x, xs⟩
  · rw [hs] at h; simp at h
  · rw [hs] at h
    simp only [List.head?_cons, Option.some.injEq] at h
    have hle := sortBy_head_le (pathLe_total t penalty) (pathLe_trans t penalty) hs q
      ((mem_candidatePaths t allowed s d q).mpr hq)
    rwa [h] at hle

theorem get_hops_none_iff (t : Topology) (penalty : Nat) (allowed : Nat → Bool)
    (s d : Nat) :
    get_hops t penalty allowed s d = none ↔
      ∀ p, validPath t allowed s d p = false := by
  unfold get_hops
  constructor
  · intro h p
    rcases Bool.eq_false_or_eq_true (validPath t allowed s d p) with hv | hv
    · exfalso
      have hmem : p ∈ candidatePaths t allowed s d :=
        (mem_candidatePaths t allowed s d p).mpr hv
      have hnil : sortBy (pathLe t penalty) (candidatePaths t allowed s d) = [] :=
        List.head?_eq_none_iff.mp h
      have : candidatePaths t allowed s d = [] :=
        ((hnil ▸ sortBy_perm (pathLe t penalty) (candidatePaths t allowed s d)).symm).eq_nil
      simp [this] at hmem
    · exact hv
  · intro h
    have : candidatePaths t allowed s d = [] := by
      unfold candidatePaths
      refine List.filter_eq_nil_iff.mpr ?_
      intro p _
      simp [h p]
    rw [this]
    rfl

theorem chainOk_hops (t : Topology) (p : List Nat) (h : chainOk t p = true) :
    ∀ e ∈ hopsOf p, 0 < t.cost e.1 e.2 := by
  induction p with
  | nil => simp [hopsOf]
  | cons a rest ih =>
      cases rest with
      | nil => simp [hopsOf]
      | cons b rest2 =>
          simp only [chainOk, Bool.and_eq_true, decide_eq_true_eq] at h
          intro e he
          simp only [hopsOf, List.drop_one, List.tail_cons, List.zip_cons_cons,
            List.mem_cons] at he
          rcases he with rfl | he
          · exact h.1
          · exact ih h.2 e (by simpa [hopsOf, List.drop_one] using he)

theorem ltStep_le {α : Type} [LinearOrder α] {x y : α} {k : Bool}
    (h : ltStep x y k = true) : x ≤ y ∧ (x = y → k = true) := by
  unfold ltStep at h
  rcases lt_trichotomy x y with hxy | hxy | hxy
  · exact ⟨hxy.le, fun he => absurd he hxy.ne⟩
  · subst hxy
    simp [lt_irrefl] at h
    exact ⟨le_refl x, fun _ => h⟩
  · rw [if_neg hxy.asymm, if_pos hxy] at h
    exact absurd h (by simp)

/-- Modelled from the spec: ordering of a request's candidate transfer paths
inside build_transfer_paths — cheapest total cost (hop penalty included)
first, a tie going to the path with fewer hops. -/
def rankPaths (t : Topology) (penalty : Nat) (ps : List (List Nat)) : List (List Nat) :=
  sortBy (pathLe t penalty) ps

theorem sortBy_pair {α : Type} (le : α → α → Bool) (a b : α) :
    sortBy le [a, b] = if le a b then [a, b] else [b, a] := by
  by_cases h : le a b = true
  · simp [sortBy, insertBy, h]
  · simp [sortBy, insertBy, h]

theorem pathLe_of_cheaper (t : Topology) (penalty : Nat) {p q : List Nat}
    (hc : pathCost t penalty p < pathCost t penalty q) :
    pathLe t penalty p q = true ∧ pathLe t penalty q p = false := by
  unfold pathLe ltStep
  simp [hc, Nat.lt_asymm hc]

theorem pathLe_of_shorter (t : Topology) (penalty : Nat) {p q : List Nat}
    (hc : pathCost t penalty p ≤ pathCost t penalty q)
    (hl : p.length < q.length) :
    pathLe t penalty p q = true ∧ pathLe t penalty q p = false := by
  rcases lt_or_eq_of_le hc with h | h
  · exact pathLe_of_cheaper t penalty h
  · unfold pathLe ltStep
    rw [h]
    simp [lt_irrefl, hl, Nat.lt_asymm hl]

/-- Witness topology for C2: a direct 0→3 edge of cost 25 against a relay
0→1→3 of summed cost 20, which the hop penalty of 10 makes more expensive. -/
def wTopo : Topology where
  nodes := [0, 1, 2, 3]
  cost a b :=
    if a = 0 ∧ b = 1 then 10
    else if a = 1 ∧ b = 3 then 10
    else if a = 0 ∧ b = 3 then 25
    else if a = 2 ∧ b = 3 then 30
    else 0

/-- Witness topology for C8: the only 0→2 route goes through 1 because the
direct 0→2 edge has cost 0 (absent). -/
def zTopo : Topology where
  nodes := [0, 1, 2]
  cost a b :=
    if a = 0 ∧ b = 1 then 5
    else if a = 1 ∧ b = 2 then 5
    else 0

/-- Witness topology for C3/C5: the single/multihop race of the tests — edges
0→1 (10), 1→3 (10), 2→3 (30), 4→3 (200); node 5 is isolated. -/
def tTopo5 : Topology where
  nodes := [0, 1, 2, 3, 4, 5]
  cost a b :=
    if a = 0 ∧ b = 1 then 10
    else if a = 1 ∧ b = 3 then 10
    else if a = 2 ∧ b = 3 then 30
    else if a = 4 ∧ b = 3 then 200
    else 0

/-- C2: a path returned by get_hops is a candidate path minimizing the total
cost (edge-cost sum plus the fixed per-additional-hop penalty); among paths of
equal total cost the returned one has no more hops, and when cost and hop
count tie it also precedes in the deterministic endpoint-id order. -/
theorem c2_get_hops_minimizes (t : Topology) (penalty : Nat) (allowed : Nat → Bool)
    (s d : Nat) (p q : List Nat) (hp : get_hops t penalty allowed s d = some p)
    (hq : validPath t allowed s d q = true) :
    validPath t allowed s d p = true ∧
    pathCost t penalty p ≤ pathCost t penalty q ∧
    (pathCost t penalty p = pathCost t penalty q → p.length ≤ q.length) ∧
    (pathCost t penalty p = pathCost t penalty q → p.length = q.length →
      listLe p q = true) := by
  have hvalid := get_hops_some_valid t penalty allowed s d p hp
  have hle := get_hops_min t penalty allowed s d p hp q hq
  unfold pathLe at hle
  obtain ⟨hcost, hinner⟩ := ltStep_le hle
  refine ⟨hvalid, hcost, ?_, ?_⟩
  · intro he
    exact (ltStep_le (hinner he)).1
  · intro he hlen
    exact (ltStep_le (hinner he)).2 hlen

/-- C2 witness: on the witness topology the direct path [0, 3] of cost 25
beats the relay [0, 1, 3] of penalized cost 30. -/
theorem c2_get_hops_minimizes_witness :
    get_hops wTopo 10 (fun _ => true) 0 3 = some [0, 3] ∧
    pathCost wTopo 10 [0, 3] ≤ pathCost wTopo 10 [0, 1, 3] :=
  ⟨by decide,
    (c2_get_hops_minimizes wTopo 10 (fun _ => true) 0 3 [0, 3] [0, 1, 3]
      (by decide) (by decide)).2.1⟩

/-- C3: get_hops fails with the NoPathError outcome (none) exactly when no
valid route exists under the active multihop policy, and at the per-request
layer this failure only removes the affected source from the candidate list —
a source appears in the built paths iff it is a requested source that has a
route, independently of the other sources in the batch. -/
theorem c3_no_path_error (t : Topology) (penalty : Nat) (allowed : Nat → Bool)
    (d : Nat) :
    (∀ s, get_hops t penalty allowed s d = none ↔
      ∀ p, validPath t allowed s d p = false) ∧
    (∀ (srcs : List Nat) (src : Nat),
      (∃ pr ∈ build_paths_for_sources t penalty allowed srcs d, pr.1 = src) ↔
        src ∈ srcs ∧ get_hops t penalty allowed src d ≠ none) := by
  refine ⟨fun s => get_hops_none_iff t penalty allowed s d, ?_⟩
  intro srcs src
  unfold build_paths_for_sources
  constructor
  · rintro ⟨pr, hpr, rfl⟩
    rcases List.mem_filterMap.mp hpr with ⟨a, ha, hfa⟩
    rcases hg : get_hops t penalty allowed a d with _ | p
    · rw [hg] at hfa
      simp at hfa
    · rw [hg] at hfa
      simp only [Option.map_some', Option.some.injEq] at hfa
      subst hfa
      exact ⟨ha, by simp [hg]⟩
  · rintro ⟨hmem, hne⟩
    rcases hg : get_hops t penalty allowed src d with _ | p
    · exact absurd hg hne
    · exact ⟨(src, p), List.mem_filterMap.mpr ⟨src, hmem, by rw [hg]; rfl⟩, rfl⟩

/-- C3 witness: on the zero-edge topology node 2 has no outgoing route, so no
chain from 2 to 0 is a valid path, while at the request layer source 0 (which
does have a route to 2) survives in the built paths of the batch [0, 2]. -/
theorem c3_no_path_error_witness :
    validPath zTopo (fun _ => true) 2 0 [2, 0] = false ∧
    (∃ pr ∈ build_paths_for_sources zTopo 10 (fun _ => true) [0, 2] 2, pr.1 = 0) :=
  ⟨((c3_no_path_error zTopo 10 (fun _ => true) 0).1 2).mp (by decide) [2, 0],
   ((c3_no_path_error zTopo 10 (fun _ => true) 2).2 [0, 2] 0).mpr
     ⟨by decide, by decide⟩⟩

/-- C5: between a single-hop candidate path and a multihop one, the single-hop
path ranks first whenever the multihop chain's summed edge cost does not beat
it by more than the accumulated hop penalty (ties included), and the multihop
path ranks first when its summed edge cost is cheaper by more than the
accumulated penalty — in both insertion orders of the candidate list. -/
theorem c5_singlehop_vs_multihop (t : Topology) (penalty : Nat) (sh mh : List Nat)
    (hsh : sh.length = 2) (hmh : 3 ≤ mh.length) :
    (edgeSum t sh ≤ edgeSum t mh + penalty * (mh.length - 2) →
      (rankPaths t penalty [sh, mh]).head? = some sh ∧
      (rankPaths t penalty [mh, sh]).head? = some sh) ∧
    (edgeSum t mh + penalty * (mh.length - 2) < edgeSum t sh →
      (rankPaths t penalty [sh, mh]).head? = some mh ∧
      (rankPaths t penalty [mh, sh]).head? = some mh) := by
  have hcs : pathCost t penalty sh = edgeSum t sh := by
    simp [pathCost, hsh]
  have hcm : pathCost t penalty mh = edgeSum t mh + penalty * (mh.length - 2) := rfl
  constructor
  · intro hcase
    have hc : pathCost t penalty sh ≤ pathCost t penalty mh := by
      rw [hcs, hcm]; exact hcase
    obtain ⟨h1, h2⟩ := pathLe_of_shorter t penalty hc (by omega)
    constructor
    · show (sortBy (pathLe t penalty) [sh, mh]).head? = some sh
      rw [sortBy_pair, if_pos h1]
      rfl
    · show (sortBy (pathLe t penalty) [mh, sh]).head? = some sh
      rw [sortBy_pair, if_neg (by simp [h2])]
      rfl
  · intro hcase
    have hc : pathCost t penalty mh < pathCost t penalty sh := by
      rw [hcs, hcm]; exact hcase
    obtain ⟨h1, h2⟩ := pathLe_of_cheaper t penalty hc
    constructor
    · show (sortBy (pathLe t penalty) [sh, mh]).head? = some mh
      rw [sortBy_pair, if_neg (by simp [h2])]
      rfl
    · show (sortBy (pathLe t penalty) [mh, sh]).head? = some mh
      rw [sortBy_pair, if_pos h1]
      rfl

/-- C5 witness: with penalty 10, the direct 2→3 (cost 30) outranks 0→1→3
(summed cost 20, penalized 30), while 0→1→3 outranks the direct 4→3 (200). -/
theorem c5_singlehop_vs_multihop_witness :
    (rankPaths tTopo5 10 [[2, 3], [0, 1, 3]]).head? = some [2, 3] ∧
    (rankPaths tTopo5 10 [[0, 1, 3], [4, 3]]).head? = some [0, 1, 3] :=
  ⟨((c5_singlehop_vs_multihop tTopo5 10 [2, 3] [0, 1, 3] rfl (by decide)).1
      (by decide)).1,
   ((c5_singlehop_vs_multihop tTopo5 10 [4, 3] [0, 1, 3] rfl (by decide)).2
      (by decide)).2⟩

/-- C8: no hop of a path returned by Path Search traverses an edge whose cost
is zero or undefined — such edges are as good as absent. -/
theorem c8_no_zero_cost_edges (t : Topology) (penalty : Nat) (allowed : Nat → Bool)
    (s d : Nat) (p : List Nat) (hp : get_hops t penalty allowed s d = some p)
    (e : Nat × Nat) (he : e ∈ hopsOf p) : 0 < t.cost e.1 e.2 := by
  have hvalid := get_hops_some_valid t penalty allowed s d p hp
  rcases (validPath_iff t allowed s d p).mp hvalid with ⟨_, _, _, _, _, hch, _⟩
  exact chainOk_hops t p hch e he

/-- C8 witness: on the zero-cost-edge topology the returned route 0→1→2 avoids
the cost-0 direct edge and both of its hops have positive cost. -/
theorem c8_no_zero_cost_edges_witness :
    0 < zTopo.cost 0 1 ∧ 0 < zTopo.cost 1 2 :=
  ⟨c8_no_zero_cost_edges zTopo 10 (fun _ => true) 0 2 [0, 1, 2] (by decide)
      (0, 1) (by decide),
   c8_no_zero_cost_edges zTopo 10 (fun _ => true) 0 2 [0, 1, 2] (by decide)
      (1, 2) (by decide)⟩

/-! ## Source ranking pipeline -/

theorem ltStep_true_of_lt {α : Type} [LinearOrder α] {x y : α} (h : x < y)
    (k : Bool) : ltStep x y k = true := by
  unfold ltStep
  rw [if_pos h]

theorem ltStep_false_of_gt {α : Type} [LinearOrder α] {x y : α} (h : y < x)
    (k : Bool) : ltStep x y k = false := by
  unfold ltStep
  rw [if_neg h.asymm, if_pos h]

theorem ltStep_eq_of_eq {α : Type} [LinearOrder α] {x y : α} (h : x = y)
    (k : Bool) : ltStep x y k = k := by
  subst h
  exact ltStep_self x k

/-- Endpoint storage type. -/
inductive RseType
  | disk
  | tape
deriving DecidableEq

/-- Modelled from the spec: a candidate source of a request as the ranking
pipeline sees it — endpoint id, endpoint type, mutable ranking score and the
path distance of its candidate path (rucio.core.transfer is not in this
tree). -/
structure TSource where
  sid : Nat
  rtype : RseType
  ranking : Int
  distance : Nat
deriving DecidableEq

/-- Modelled from the spec: the adjusted ranking of HighestAdjustedRankingFirst.
Tape endpoints are handicapped by the fixed deficit threshold of two
accumulated failures, so a disk source outranks a tape source until the disk
ranking falls two points below the tape's. -/
def adjRank (s : TSource) : Int :=
  if s.rtype = RseType.tape then s.ranking - 2 else s.ranking

/-- Tie order between the endpoint types once adjusted rankings are equal: at
the exact deficit threshold the tape source is tried. -/
def typeOrd (s : TSource) : Nat :=
  match s.rtype with
  | RseType.tape => 0
  | RseType.disk => 1

/-- Modelled from the spec: the composed comparator of the default strategy
pipeline — adjusted ranking descending, then the disk/tape threshold rule,
then path distance ascending, then the deterministic endpoint-id order. -/
def srcLe (a b : TSource) : Bool :=
  ltStep (-(adjRank a)) (-(adjRank b))
    (ltStep (typeOrd a) (typeOrd b)
      (ltStep a.distance b.distance (decide (a.sid ≤ b.sid))))

theorem srcLe_total (a b : TSource) : (srcLe a b || srcLe b a) = true := by
  unfold srcLe
  refine Bool.or_eq_true _ _ |>.mpr (ltStep_total (ltStep_total (ltStep_total ?_)))
  rcases Nat.le_total a.sid b.sid with h | h
  · left; simpa using h
  · right; simpa using h

theorem srcLe_trans (a b c : TSource) :
    srcLe a b = true → srcLe b c = true → srcLe a c = true := by
  unfold srcLe
  refine ltStep_trans (ltStep_trans (ltStep_trans ?_))
  intro h1 h2
  simp only [decide_eq_true_eq] at h1 h2 ⊢
  exact le_trans h1 h2

/-- Modelled from the spec: the ordering produced by the comparator stages of
the strategy pipeline. -/
def pipelineSort (l : List TSource) : List TSource := sortBy srcLe l

/-- Modelled from the spec: winner selection after the full pipeline — a
winning tape source is truncated to a single source, while a winning disk
source keeps every surviving disk source as simultaneous redundant winners. -/
def selectWinners (l : List TSource) : List TSource :=
  match pipelineSort l with
  | [] => []
  | top :: rest =>
      if top.rtype = RseType.tape then [top]
      else (top :: rest).filter (fun s => decide (s.rtype = RseType.disk))

theorem rtype_disk_of_ne_tape {s : TSource} (h : ¬s.rtype = RseType.tape) :
    s.rtype = RseType.disk := by
  cases hs : s.rtype
  · rfl
  · exact absurd hs h

theorem selectWinners_head (l : List TSource) :
    (selectWinners l).head? = (pipelineSort l).head? := by
  unfold selectWinners
  rcases hs : pipelineSort l with _ | ⟨top, rest⟩
  · rfl
  · by_cases ht : top.rtype = RseType.tape
    · simp [ht]
    · have hd := rtype_disk_of_ne_tape ht
      simp [ht, List.filter_cons, hd]

/-- C4: with equal rankings and distances a disk source is selected ahead of
every tape source and the winners are exactly the disk sources (simultaneous
redundant winners); once every disk ranking sits two points below every tape
ranking, a tape source is selected instead; and whenever a tape source wins,
it is the only selected source. -/
theorem c4_disk_vs_tape (l : List TSource) :
    (∀ r dd, (∀ s ∈ l, s.ranking = r ∧ s.distance = dd) →
      (∃ s ∈ l, s.rtype = RseType.disk) →
      (selectWinners l).head?.map TSource.rtype = some RseType.disk ∧
        ∀ s, s ∈ selectWinners l ↔ s ∈ l ∧ s.rtype = RseType.disk) ∧
    ((∃ s ∈ l, s.rtype = RseType.tape) →
      (∀ s ∈ l, ∀ u ∈ l, s.rtype = RseType.disk → u.rtype = RseType.tape →
        s.ranking ≤ u.ranking - 2) →
      (selectWinners l).head?.map TSource.rtype = some RseType.tape) ∧
    (∀ top0, (selectWinners l).head? = some top0 → top0.rtype = RseType.tape →
      selectWinners l = [top0]) := by
  refine ⟨?_, ?_, ?_⟩
  · intro r dd hall hdisk
    obtain ⟨s0, hs0l, hs0d⟩ := hdisk
    rcases hs : pipelineSort l with _ | ⟨top, rest⟩
    · exfalso
      have hmem : s0 ∈ pipelineSort l := (mem_sortBy _ _ _).mpr hs0l
      simp [hs] at hmem
    · have htopl : top ∈ l := (mem_sortBy srcLe l top).mp (by
        rw [show sortBy srcLe l = pipelineSort l from rfl, hs]
        exact List.mem_cons_self top rest)
      have htopd : top.rtype = RseType.disk := by
        by_contra hne
        have htape : top.rtype = RseType.tape := by
          cases hc : top.rtype
          · exact absurd hc hne
          · rfl
        have h1 : adjRank top = r - 2 := by
          simp [adjRank, htape, (hall top htopl).1]
        have h2 : adjRank s0 = r := by
          simp [adjRank, hs0d, (hall s0 hs0l).1]
        have hgt : -(adjRank s0) < -(adjRank top) := by
          rw [h1, h2]; omega
        have htru := sortBy_head_le srcLe_total srcLe_trans hs s0 hs0l
        rw [show srcLe top s0 = false from ltStep_false_of_gt hgt _] at htru
        exact absurd htru (by simp)
      have hwin : selectWinners l =
          (top :: rest).filter (fun s => decide (s.rtype = RseType.disk)) := by
        unfold selectWinners
        rw [hs]
        simp [htopd]
      refine ⟨?_, ?_⟩
      · rw [selectWinners_head, hs]
        simp [htopd]
      · intro s
        rw [hwin]
        simp only [List.mem_filter, decide_eq_true_eq]
        constructor
        · rintro ⟨hmem, hd⟩
          refine ⟨(mem_sortBy srcLe l s).mp ?_, hd⟩
          rw [show sortBy srcLe l = pipelineSort l from rfl, hs]
          exact hmem
        · rintro ⟨hmem, hd⟩
          refine ⟨?_, hd⟩
          have : s ∈ pipelineSort l := (mem_sortBy srcLe l s).mpr hmem
          rw [hs] at this
          exact this
  · rintro ⟨u0, hu0l, hu0t⟩ hgap
    rcases hs : pipelineSort l with _ | ⟨top, rest⟩
    · exfalso
      have hmem : u0 ∈ pipelineSort l := (mem_sortBy _ _ _).mpr hu0l
      simp [hs] at hmem
    · have htopl : top ∈ l := (mem_sortBy srcLe l top).mp (by
        rw [show sortBy srcLe l = pipelineSort l from rfl, hs]
        exact List.mem_cons_self top rest)
      have htopt : top.rtype = RseType.tape := by
        by_contra hne
        have hdiskt := rtype_disk_of_ne_tape hne
        have hrank := hgap top htopl u0 hu0l hdiskt hu0t
        have h1 : adjRank top = top.ranking := by
          simp [adjRank, hdiskt]
        have h2 : adjRank u0 = u0.ranking - 2 := by
          simp [adjRank, hu0t]
        have htru := sortBy_head_le srcLe_total srcLe_trans hs u0 hu0l
        rcases lt_or_eq_of_le hrank with hlt | heq
        · have hgt : -(adjRank u0) < -(adjRank top) := by
            rw [h1, h2]; omega
          rw [show srcLe top u0 = false from ltStep_false_of_gt hgt _] at htru
          exact absurd htru (by simp)
        · have hfal : srcLe top u0 = false := by
            unfold srcLe
            rw [ltStep_eq_of_eq (by rw [h1, h2, heq]) _]
            have hto : typeOrd u0 < typeOrd top := by
              simp [typeOrd, hdiskt, hu0t]
            exact ltStep_false_of_gt hto _
          rw [hfal] at htru
          exact absurd htru (by simp)
      rw [selectWinners_head, hs]
      simp [htopt]
  · intro top0 hhead htape
    rcases hs : pipelineSort l with _ | ⟨top, rest⟩
    · rw [selectWinners_head, hs] at hhead
      simp at hhead
    · have hwin : selectWinners l = if top.rtype = RseType.tape then [top]
          else (top :: rest).filter (fun s => decide (s.rtype = RseType.disk)) := by
        unfold selectWinners
        rw [hs]
      have htop0 : top0 = top := by
        rw [selectWinners_head, hs] at hhead
        simp only [List.head?_cons, Option.some.injEq] at hhead
        exact hhead.symm
      by_cases ht : top.rtype = RseType.tape
      · rw [hwin, if_pos ht, htop0]
      · have hcontra : RseType.disk = RseType.tape := by
          rw [← rtype_disk_of_ne_tape ht, ← htop0]
          exact htape
        exact absurd hcontra (by simp)

/-- Witness sources for C4 part one: two disk and one tape source, all with
ranking 0 and distance 10. -/
def srcsEq : List TSource :=
  [⟨0, RseType.disk, 0, 10⟩, ⟨1, RseType.disk, 0, 10⟩, ⟨2, RseType.tape, 0, 10⟩]

/-- Witness sources for C4 part two: the disk rankings have dropped to -2
while the tape rankings remain 0 (the scenario of the disk-versus-tape test). -/
def srcsGap : List TSource :=
  [⟨0, RseType.tape, 0, 15⟩, ⟨1, RseType.tape, 0, 10⟩,
   ⟨2, RseType.disk, -2, 15⟩, ⟨3, RseType.disk, -2, 10⟩]

/-- C4 witness: on equal ranking and distance the winner set is disk-typed and
contains both disk sources; after the two-point drop a tape source wins. -/
theorem c4_disk_vs_tape_witness :
    (selectWinners srcsEq).head?.map TSource.rtype = some RseType.disk ∧
    ((⟨1, RseType.disk, 0, 10⟩ : TSource) ∈ selectWinners srcsEq) ∧
    (selectWinners srcsGap).head?.map TSource.rtype = some RseType.tape :=
  ⟨((c4_disk_vs_tape srcsEq).1 0 10 (by decide) (by decide)).1,
   (((c4_disk_vs_tape srcsEq).1 0 10 (by decide) (by decide)).2
      ⟨1, RseType.disk, 0, 10⟩).mpr (by decide),
   (c4_disk_vs_tape srcsGap).2.1 (by decide) (by decide)⟩

/-- C7 counterexample: two candidate sources of unequal ranking where the
lower-ranked (disk) source is selected over the higher-ranked (tape) source,
because the disk-over-tape preference overrides ranking until the two-point
deficit is reached — refuting "the higher ranking wins regardless". -/
theorem c7_counterexample :
    (⟨0, RseType.disk, -1, 100⟩ : TSource).ranking <
      (⟨1, RseType.tape, 0, 1⟩ : TSource).ranking ∧
    (selectWinners [⟨0, RseType.disk, -1, 100⟩, ⟨1, RseType.tape, 0, 1⟩]).head? =
      some ⟨0, RseType.disk, -1, 100⟩ := by
  exact ⟨by decide, by decide⟩

/-- C7 (amended): for two candidate sources of the same endpoint type, equal
ranking makes the smaller path distance win, and unequal ranking makes the
higher ranking win regardless of distance. -/
theorem c7_ranking_vs_distance (a b : TSource) (hty : a.rtype = b.rtype) :
    (a.ranking = b.ranking → a.distance < b.distance →
      (selectWinners [a, b]).head? = some a) ∧
    (b.ranking < a.ranking → (selectWinners [a, b]).head? = some a) := by
  have hpair : pipelineSort [a, b] = if srcLe a b then [a, b] else [b, a] :=
    sortBy_pair srcLe a b
  have hadj : adjRank a - a.ranking = adjRank b - b.ranking := by
    unfold adjRank
    rw [hty]
    by_cases h : b.rtype = RseType.tape
    · simp [h]
    · simp [h]
  constructor
  · intro hrank hdist
    have hle : srcLe a b = true := by
      unfold srcLe
      rw [ltStep_eq_of_eq (by omega) _]
      rw [ltStep_eq_of_eq (by simp [typeOrd, hty]) _]
      exact ltStep_true_of_lt hdist _
    rw [selectWinners_head, hpair, if_pos hle]
    rfl
  · intro hrank
    have hle : srcLe a b = true := by
      unfold srcLe
      exact ltStep_true_of_lt (by omega) _
    rw [selectWinners_head, hpair, if_pos hle]
    rfl

/-- C7 amended witness: between two tape sources, equal ranking picks the
closer one, and a ranking gap picks the higher-ranked one despite its larger
distance. -/
theorem c7_ranking_vs_distance_witness :
    (selectWinners [⟨2, RseType.tape, 0, 10⟩, ⟨0, RseType.tape, 0, 15⟩]).head? =
      some ⟨2, RseType.tape, 0, 10⟩ ∧
    (selectWinners [⟨0, RseType.tape, 0, 15⟩, ⟨1, RseType.tape, -1, 10⟩]).head? =
      some ⟨0, RseType.tape, 0, 15⟩ :=
  ⟨(c7_ranking_vs_distance ⟨2, RseType.tape, 0, 10⟩ ⟨0, RseType.tape, 0, 15⟩
      rfl).1 rfl (by decide),
   (c7_ranking_vs_distance ⟨0, RseType.tape, 0, 15⟩ ⟨1, RseType.tape, -1, 10⟩
      rfl).2 (by decide)⟩

/-! ## TransferWaitTime strategy -/

/-- Modelled from the spec: a candidate source as the TransferWaitTime strategy
sees it — endpoint id, queued transfer count and queued bytes already assigned
to it, plus the static-order value (path distance) driving the deterministic
fallback when the strategy is disabled. -/
structure WSource where
  wid : Nat
  queuedFiles : Nat
  queuedBytes : ℚ
  staticOrder : Nat
deriving DecidableEq

/-- Modelled from the spec: estimated queue wait of a source — a fixed per-file
overhead times the queued transfer count, plus queued bytes over the
throughput estimate. -/
def waitTime (overhead throughput : ℚ) (s : WSource) : ℚ :=
  overhead * s.queuedFiles + s.queuedBytes / throughput

/-- Mean estimated wait over the candidate sources. -/
def avgWait (overhead throughput : ℚ) (l : List WSource) : ℚ :=
  (l.map (waitTime overhead throughput)).sum / l.length

/-- The below-average-wait group. -/
def belowAvg (overhead throughput : ℚ) (l : List WSource) : List WSource :=
  l.filter (fun s =>
    decide (waitTime overhead throughput s < avgWait overhead throughput l))

/-- The above-average-wait group (wait at or above the mean). -/
def aboveAvg (overhead throughput : ℚ) (l : List WSource) : List WSource :=
  l.filter (fun s =>
    !decide (waitTime overhead throughput s < avgWait overhead throughput l))

/-- Sum of the inverse waits of a group. -/
def invSum (overhead throughput : ℚ) (g : List WSource) : ℚ :=
  (g.map (fun s => 1 / waitTime overhead throughput s)).sum

/-- Modelled from the spec: the selection probability TransferWaitTime assigns
to a source — the below-average group shares total probability 9/10, the
above-average group the fixed exploration probability 1/10, and within each
group a member's share is inversely proportional to its wait. -/
def selectionProb (overhead throughput : ℚ) (l : List WSource) (s : WSource) : ℚ :=
  if waitTime overhead throughput s < avgWait overhead throughput l then
    (9 / 10) * (1 / waitTime overhead throughput s) /
      invSum overhead throughput (belowAvg overhead throughput l)
  else
    (1 / 10) * (1 / waitTime overhead throughput s) /
      invSum overhead throughput (aboveAvg overhead throughput l)

/-- Deterministic ordering used when TransferWaitTime is disabled: static-order
value ascending, then endpoint id. -/
def staticLe (a b : WSource) : Bool :=
  ltStep a.staticOrder b.staticOrder (decide (a.wid ≤ b.wid))

/-- Winner of the deterministic fallback pipeline. -/
def staticWinner (l : List WSource) : Option WSource :=
  (sortBy staticLe l).head?

theorem staticLe_total (a b : WSource) : (staticLe a b || staticLe b a) = true := by
  unfold staticLe
  refine Bool.or_eq_true _ _ |>.mpr (ltStep_total ?_)
  rcases Nat.le_total a.wid b.wid with h | h
  · left; simpa using h
  · right; simpa using h

theorem staticLe_trans (a b c : WSource) :
    staticLe a b = true → staticLe b c = true → staticLe a c = true := by
  unfold staticLe
  refine ltStep_trans ?_
  intro h1 h2
  simp only [decide_eq_true_eq] at h1 h2 ⊢
  exact le_trans h1 h2

theorem invSum_pos (overhead throughput : ℚ) (l : List WSource) (g : List WSource)
    (hsub : ∀ s ∈ g, s ∈ l) (hpos : ∀ s ∈ l, 0 < waitTime overhead throughput s)
    (hne : g ≠ []) : 0 < invSum overhead throughput g := by
  unfold invSum
  refine List.sum_pos _ ?_ ?_
  · intro x hx
    rcases List.mem_map.mp hx with ⟨s, hs, rfl⟩
    have := hpos s (hsub s hs)
    positivity
  · simpa using hne

/-- C6: the TransferWaitTime strategy computes per-source waits from queued
bytes and throughput and assigns the below-average-wait group total probability
9/10 and the above-average group total probability 1/10, with each member's
selection probability inversely proportional to its wait (so the sampled
selection frequencies converge to exactly this distribution); with the
strategy disabled, the deterministic winner has the lowest static-order value
among the candidates. -/
theorem c6_transfer_wait_time (overhead throughput : ℚ) (l : List WSource)
    (hpos : ∀ s ∈ l, 0 < waitTime overhead throughput s)
    (hbelow : belowAvg overhead throughput l ≠ [])
    (habove : aboveAvg overhead throughput l ≠ []) :
    ((belowAvg overhead throughput l).map (selectionProb overhead throughput l)).sum
        = 9 / 10 ∧
    ((aboveAvg overhead throughput l).map (selectionProb overhead throughput l)).sum
        = 1 / 10 ∧
    (∀ s ∈ belowAvg overhead throughput l, ∀ u ∈ belowAvg overhead throughput l,
      selectionProb overhead throughput l s * waitTime overhead throughput s =
        selectionProb overhead throughput l u * waitTime overhead throughput u) ∧
    (∀ s ∈ aboveAvg overhead throughput l, ∀ u ∈ aboveAvg overhead throughput l,
      selectionProb overhead throughput l s * waitTime overhead throughput s =
        selectionProb overhead throughput l u * waitTime overhead throughput u) ∧
    (∀ w, staticWinner l = some w → w ∈ l ∧
      ∀ s ∈ l, w.staticOrder ≤ s.staticOrder) := by
  have hsubB : ∀ s ∈ belowAvg overhead throughput l, s ∈ l := fun s hs =>
    (List.mem_filter.mp hs).1
  have hsubA : ∀ s ∈ aboveAvg overhead throughput l, s ∈ l := fun s hs =>
    (List.mem_filter.mp hs).1
  have hSb := invSum_pos overhead throughput l _ hsubB hpos hbelow
  have hSa := invSum_pos overhead throughput l _ hsubA hpos habove
  have hmemB : ∀ s ∈ belowAvg overhead throughput l,
      waitTime overhead throughput s < avgWait overhead throughput l := by
    intro s hs
    have h := (List.mem_filter.mp hs).2
    simpa using h
  have hmemA : ∀ s ∈ aboveAvg overhead throughput l,
      ¬waitTime overhead throughput s < avgWait overhead throughput l := by
    intro s hs
    have h := (List.mem_filter.mp hs).2
    simpa using h
  have hprobB : ∀ s ∈ belowAvg overhead throughput l,
      selectionProb overhead throughput l s =
        9 / 10 / invSum overhead throughput (belowAvg overhead throughput l) *
          (1 / waitTime overhead throughput s) := by
    intro s hs
    rw [selectionProb, if_pos (hmemB s hs), mul_div_right_comm]
  have hprobA : ∀ s ∈ aboveAvg overhead throughput l,
      selectionProb overhead throughput l s =
        1 / 10 / invSum overhead throughput (aboveAvg overhead throughput l) *
          (1 / waitTime overhead throughput s) := by
    intro s hs
    rw [selectionProb, if_neg (hmemA s hs), mul_div_right_comm]
  have hkeyB : ∀ s ∈ belowAvg overhead throughput l,
      selectionProb overhead throughput l s * waitTime overhead throughput s =
        9 / 10 / invSum overhead throughput (belowAvg overhead throughput l) := by
    intro s hs
    have hW := hpos s (hsubB s hs)
    rw [hprobB s hs, mul_assoc, one_div (waitTime overhead throughput s),
      inv_mul_cancel₀ (ne_of_gt hW), mul_one]
  have hkeyA : ∀ s ∈ aboveAvg overhead throughput l,
      selectionProb overhead throughput l s * waitTime overhead throughput s =
        1 / 10 / invSum overhead throughput (aboveAvg overhead throughput l) := by
    intro s hs
    have hW := hpos s (hsubA s hs)
    rw [hprobA s hs, mul_assoc, one_div (waitTime overhead throughput s),
      inv_mul_cancel₀ (ne_of_gt hW), mul_one]
  refine ⟨?_, ?_, ?_, ?_, ?_⟩
  · rw [List.map_congr_left hprobB, List.sum_map_mul_left]
    exact div_mul_cancel₀ _ (ne_of_gt hSb)
  · rw [List.map_congr_left hprobA, List.sum_map_mul_left]
    exact div_mul_cancel₀ _ (ne_of_gt hSa)
  · intro s hs u hu
    rw [hkeyB s hs, hkeyB u hu]
  · intro s hs u hu
    rw [hkeyA s hs, hkeyA u hu]
  · intro w hw
    unfold staticWinner at hw
    rcases hs : sortBy staticLe l with _ | ⟨x, xs⟩
    · rw [hs] at hw
      simp at hw
    · rw [hs] at hw
      simp only [List.head?_cons, Option.some.injEq] at hw
      have hxl : x ∈ l := (mem_sortBy _ _ _).mp (by
        rw [hs]; exact List.mem_cons_self _ _)
      have hle := sortBy_head_le staticLe_total staticLe_trans hs
      refine ⟨hw ▸ hxl, ?_⟩
      intro s hsl
      have h := hle s hsl
      unfold staticLe at h
      have h1 := (ltStep_le h).1
      rw [← hw]
      exact h1

/-- Witness sources for C6: waits 20, 40, 60 and 120 (overhead 10, throughput
1), matching the wait-time test's expected distribution 3/5, 3/10, 1/15,
1/30; the static orders mirror the four distances of the test. -/
def wlist : List WSource :=
  [⟨0, 1, 10, 40⟩, ⟨1, 2, 20, 30⟩, ⟨2, 1, 50, 20⟩, ⟨3, 3, 90, 10⟩]

theorem wlist_pos : ∀ s ∈ wlist, 0 < waitTime 10 1 s := by
  intro s hs
  fin_cases hs <;> norm_num [waitTime]

theorem wlist_below : belowAvg 10 1 wlist ≠ [] := by
  have hmem : (⟨0, 1, 10, 40⟩ : WSource) ∈ belowAvg 10 1 wlist := by
    refine List.mem_filter.mpr ⟨by simp [wlist], ?_⟩
    simp only [decide_eq_true_eq]
    norm_num [waitTime, avgWait, wlist]
  exact List.ne_nil_of_mem hmem

theorem wlist_above : aboveAvg 10 1 wlist ≠ [] := by
  have hmem : (⟨3, 3, 90, 10⟩ : WSource) ∈ aboveAvg 10 1 wlist := by
    refine List.mem_filter.mpr ⟨by simp [wlist], ?_⟩
    simp only [Bool.not_eq_true', decide_eq_false_iff_not]
    norm_num [waitTime, avgWait, wlist]
  exact List.ne_nil_of_mem hmem

/-- C6 witness: on the four test sources the below-average group receives
probability 9/10 and the above-average group 1/10. -/
theorem c6_transfer_wait_time_witness :
    ((belowAvg 10 1 wlist).map (selectionProb 10 1 wlist)).sum = 9 / 10 ∧
    ((aboveAvg 10 1 wlist).map (selectionProb 10 1 wlist)).sum = 1 / 10 :=
  ⟨(c6_transfer_wait_time 10 1 wlist wlist_pos wlist_below wlist_above).1,
   (c6_transfer_wait_time 10 1 wlist wlist_pos wlist_below wlist_above).2.1⟩

/-! ## Submission coordinator -/

/-- Request lifecycle states. -/
inductive ReqState
  | queued
  | submitted
  | done
  | failed
deriving DecidableEq

/-- A state is non-terminal while the request can still be worked on. -/
def nonTerminal : ReqState → Bool
  | ReqState.queued => true
  | ReqState.submitted => true
  | _ => false

/-- Modelled from the spec: a persisted Request row of the Submission
Coordinator (rucio.core.request is not in this tree) — data identifier,
destination endpoint, state, and the attributes an intermediate hop request
carries. -/
structure RequestRow where
  did : Nat
  destRse : Nat
  state : ReqState
  is_intermediate_hop : Bool
  source_replica_expression : Option Nat
deriving DecidableEq

/-- The shared persistent state: the stored Request rows. -/
abbrev Db := List RequestRow

/-- Match on the (data identifier, destination endpoint) pair. -/
def keyMatch (d dest : Nat) (r : RequestRow) : Bool :=
  decide (r.did = d) && decide (r.destRse = dest)

/-- Modelled from the spec: the atomic insert-if-absent conditional write that
creates an intermediate hop request — a uniqueness conflict with an existing
non-terminal request for the same (data identifier, destination endpoint)
pair is recovered by reusing that row, otherwise a queued hop request carrying
is_intermediate_hop and the original source constraint is inserted. -/
def tryCreateHopRequest (d dest src : Nat) (db : Db) : Db :=
  match db.find? (fun r => keyMatch d dest r && nonTerminal r.state) with
  | some _ => db
  | none => db ++ [⟨d, dest, ReqState.queued, true, some src⟩]

/-- Modelled from the spec: the atomic update-if-still-queued conditional
transition to submitted; a losing worker matches no queued row and changes
nothing. -/
def condSubmit (d dest : Nat) (db : Db) : Db :=
  db.map (fun r =>
    if keyMatch d dest r && decide (r.state = ReqState.queued) then
      { r with state := ReqState.submitted }
    else r)

/-- Modelled from the spec: n concurrent resolution attempts of the same
two-hop chain; each worker's hop creation is one atomic conditional write, so
an interleaving of n workers is a sequence of n such writes. -/
def runWorkers (d jump src : Nat) : Nat → Db → Db
  | 0, db => db
  | n + 1, db => runWorkers d jump src n (tryCreateHopRequest d jump src db)

/-- Coordinator safety invariant: at most one non-terminal request per
(data identifier, destination endpoint) pair. -/
def atMostOneNonTerminal (db : Db) : Prop :=
  ∀ d dest,
    (db.filter (fun r => keyMatch d dest r && nonTerminal r.state)).length ≤ 1

theorem tryCreate_fresh (d dst jump src : Nat) (hne : jump ≠ dst) :
    tryCreateHopRequest d jump src [⟨d, dst, ReqState.queued, false, none⟩] =
      [⟨d, dst, ReqState.queued, false, none⟩,
       ⟨d, jump, ReqState.queued, true, some src⟩] := by
  unfold tryCreateHopRequest
  simp [List.find?, keyMatch, nonTerminal, Ne.symm hne]

theorem tryCreate_reuse (d dst jump src : Nat) :
    tryCreateHopRequest d jump src
        [⟨d, dst, ReqState.queued, false, none⟩,
         ⟨d, jump, ReqState.queued, true, some src⟩] =
      [⟨d, dst, ReqState.queued, false, none⟩,
       ⟨d, jump, ReqState.queued, true, some src⟩] := by
  unfold tryCreateHopRequest
  rcases hf : List.find?
      (fun r => keyMatch d jump r && nonTerminal r.state)
      [⟨d, dst, ReqState.queued, false, none⟩,
       ⟨d, jump, ReqState.queued, true, some src⟩] with _ | r0
  · exfalso
    have hmem : (⟨d, jump, ReqState.queued, true, some src⟩ : RequestRow) ∈
        [⟨d, dst, ReqState.queued, false, none⟩,
         ⟨d, jump, ReqState.queued, true, some src⟩] := by simp
    have h := List.find?_eq_none.mp hf _ hmem
    simp [keyMatch, nonTerminal] at h
  · rfl

theorem runWorkers_fixed (d dst jump src : Nat) (m : Nat) :
    runWorkers d jump src m
        [⟨d, dst, ReqState.queued, false, none⟩,
         ⟨d, jump, ReqState.queued, true, some src⟩] =
      [⟨d, dst, ReqState.queued, false, none⟩,
       ⟨d, jump, ReqState.queued, true, some src⟩] := by
  induction m with
  | zero => rfl
  | succ m ih =>
      simp only [runWorkers]
      rw [tryCreate_reuse d dst jump src]
      exact ih

theorem runWorkers_result (d dst jump src : Nat) (hne : jump ≠ dst) (n : Nat)
    (hn : 1 ≤ n) :
    runWorkers d jump src n [⟨d, dst, ReqState.queued, false, none⟩] =
      [⟨d, dst, ReqState.queued, false, none⟩,
       ⟨d, jump, ReqState.queued, true, some src⟩] := by
  rcases n with _ | m
  · omega
  · simp only [runWorkers]
    rw [tryCreate_fresh d dst jump src hne]
    exact runWorkers_fixed d dst jump src m

theorem create_preserves_inv (db : Db) (d2 dest2 src2 : Nat)
    (hinv : atMostOneNonTerminal db) :
    atMostOneNonTerminal (tryCreateHopRequest d2 dest2 src2 db) := by
  unfold tryCreateHopRequest
  rcases hf : db.find? (fun r => keyMatch d2 dest2 r && nonTerminal r.state) with _ | r0
  · intro d dest
    show ((db ++ [(⟨d2, dest2, ReqState.queued, true, some src2⟩ : RequestRow)]).filter
        (fun r => keyMatch d dest r && nonTerminal r.state)).length ≤ 1
    rw [List.filter_append]
    by_cases hkey : d2 = d ∧ dest2 = dest
    · obtain ⟨rfl, rfl⟩ := hkey
      have hdb : db.filter (fun r => keyMatch d2 dest2 r && nonTerminal r.state) = [] :=
        List.filter_eq_nil_iff.mpr fun r hr => by
          have h := List.find?_eq_none.mp hf r hr
          simpa using h
      rw [hdb]
      simpa using List.length_filter_le
        (fun r => keyMatch d2 dest2 r && nonTerminal r.state)
        [(⟨d2, dest2, ReqState.queued, true, some src2⟩ : RequestRow)]
    · have hrow : (keyMatch d dest
          (⟨d2, dest2, ReqState.queued, true, some src2⟩ : RequestRow) &&
            nonTerminal (ReqState.queued)) = false := by
        rcases not_and_or.mp hkey with h | h
        · simp [keyMatch, h]
        · simp [keyMatch, h]
      have hsingle : List.filter (fun r => keyMatch d dest r && nonTerminal r.state)
          [(⟨d2, dest2, ReqState.queued, true, some src2⟩ : RequestRow)] = [] := by
        simp only [List.filter_cons, List.filter_nil]
        rw [if_neg (by simp [hrow])]
      rw [hsingle]
      simpa using hinv d dest
  · exact hinv

theorem submit_preserves_inv (db : Db) (d2 dest2 : Nat)
    (hinv : atMostOneNonTerminal db) :
    atMostOneNonTerminal (condSubmit d2 dest2 db) := by
  intro d dest
  have h1 : ((condSubmit d2 dest2 db).filter
        (fun r => keyMatch d dest r && nonTerminal r.state)).length =
      (db.filter (fun r => keyMatch d dest r && nonTerminal r.state)).length := by
    rw [← List.countP_eq_length_filter, ← List.countP_eq_length_filter, condSubmit,
      List.countP_map]
    refine List.countP_congr ?_
    intro r hr
    simp only [Function.comp_apply]
    by_cases hcond : (keyMatch d2 dest2 r && decide (r.state = ReqState.queued)) = true
    · rw [if_pos hcond]
      have hq : r.state = ReqState.queued := by
        have h2 := (Bool.and_eq_true _ _ |>.mp hcond).2
        simpa using h2
      simp [keyMatch, nonTerminal, hq]
    · rw [if_neg hcond]
  rw [h1]
  exact hinv d dest

/-- C1: n concurrent workers resolving the same two-hop chain (each hop
creation one atomic insert-if-absent) leave exactly one intermediate hop
request — queued, flagged is_intermediate_hop, carrying the original source
constraint — and exactly one final request, still queued; moreover both
conditional writes preserve the invariant that at most one non-terminal
request exists per (data identifier, destination endpoint) pair. -/
theorem c1_multihop_concurrency (d dst jump src : Nat) (n : Nat)
    (hne : jump ≠ dst) (hn : 1 ≤ n) :
    ((runWorkers d jump src n [⟨d, dst, ReqState.queued, false, none⟩]).filter
        (fun r => keyMatch d jump r) =
      [⟨d, jump, ReqState.queued, true, some src⟩]) ∧
    ((runWorkers d jump src n [⟨d, dst, ReqState.queued, false, none⟩]).filter
        (fun r => keyMatch d dst r) =
      [⟨d, dst, ReqState.queued, false, none⟩]) ∧
    (∀ db d2 dest2 src2, atMostOneNonTerminal db →
      atMostOneNonTerminal (tryCreateHopRequest d2 dest2 src2 db) ∧
      atMostOneNonTerminal (condSubmit d2 dest2 db)) := by
  rw [runWorkers_result d dst jump src hne n hn]
  refine ⟨?_, ?_, ?_⟩
  · simp [List.filter_cons, keyMatch, Ne.symm hne]
  · simp [List.filter_cons, keyMatch, hne]
  · intro db d2 dest2 src2 hinv
    exact ⟨create_preserves_inv db d2 dest2 src2 hinv,
      submit_preserves_inv db d2 dest2 hinv⟩

/-- C1 witness: three interleaved workers on the chain 5→1→2 for data
identifier 0 leave exactly one queued intermediate hop request with the
attributes and one queued final request. -/
theorem c1_multihop_concurrency_witness :
    ((runWorkers 0 1 5 3 [⟨0, 2, ReqState.queued, false, none⟩]).filter
        (fun r => keyMatch 0 1 r) =
      [⟨0, 1, ReqState.queued, true, some 5⟩]) ∧
    ((runWorkers 0 1 5 3 [⟨0, 2, ReqState.queued, false, none⟩]).filter
        (fun r => keyMatch 0 2 r) =
      [⟨0, 2, ReqState.queued, false, none⟩]) :=
  ⟨(c1_multihop_concurrency 0 2 1 5 3 (by decide) (by decide)).1,
   (c1_multihop_concurrency 0 2 1 5 3 (by decide) (by decide)).2.1⟩

/-! ## Base client: SSLError handling of _send_request and token acquisition -/

/-- Outcome of one HTTP call of _send_request: an SSLError from the transport,
or a response that is or is not a 401 Unauthorized. -/
inductive ReqOutcome
  | sslError
  | ok (unauthorized : Bool)
deriving DecidableEq

/-- Whether the loop re-raised the SSLError or fell out with its result. -/
inductive SendOutcome
  | raised
  | returned
deriving DecidableEq

/-- Result of a retry loop: the verify flag (self.ca_cert at call time) used by
each HTTP call in order, the final ca_cert, and how the loop ended. -/
structure SendResult where
  calls : List Bool
  ca : Bool
  outcome : SendOutcome
deriving DecidableEq

/-- The while-loop of BaseClient._send_request: while retry ≤ request_retries
the call runs with verify=self.ca_cert; on SSLError the client sets ca_cert to
False, increments retry and re-raises once retry exceeds request_retries; on a
401 it refreshes the token and retries; otherwise it breaks with the result.
The fuel argument equals request_retries + 1 minus the retry counter. -/
def sendLoop (oracle : Nat → ReqOutcome) : Nat → Bool → List Bool → SendResult
  | 0, ca, acc => ⟨acc, ca, SendOutcome.returned⟩
  | fuel + 1, ca, acc =>
    match oracle acc.length with
    | ReqOutcome.sslError =>
        if fuel = 0 then ⟨acc ++ [ca], false, SendOutcome.raised⟩
        else sendLoop oracle fuel false (acc ++ [ca])
    | ReqOutcome.ok unauth =>
        if unauth then sendLoop oracle fuel ca (acc ++ [ca])
        else ⟨acc ++ [ca], ca, SendOutcome.returned⟩

/-- BaseClient._send_request seen through its SSL behaviour: the retry counter
starts at 0 and the loop runs while it stays at most request_retries. -/
def sendRequest (request_retries : Nat) (oracle : Nat → ReqOutcome) (ca0 : Bool) :
    SendResult :=
  sendLoop oracle (request_retries + 1) ca0 []

/-- The while-loop of BaseClient.__get_token_userpass: bounded by
AUTH_RETRIES = 2 (fuel 3), the call runs with verify=self.ca_cert; on SSLError
it sets ca_cert to False, increments retry, and re-raises once retry exceeds
request_retries; any other outcome breaks. -/
def tokenLoop (request_retries : Nat) (oracle : Nat → Bool) :
    Nat → Nat → Bool → List Bool → SendResult
  | 0, _, ca, acc => ⟨acc, ca, SendOutcome.returned⟩
  | fuel + 1, retry, ca, acc =>
    if oracle acc.length then
      if request_retries < retry + 1 then ⟨acc ++ [ca], false, SendOutcome.raised⟩
      else tokenLoop request_retries oracle fuel (retry + 1) false (acc ++ [ca])
    else ⟨acc ++ [ca], ca, SendOutcome.returned⟩

/-- BaseClient.__get_token_userpass seen through its SSL behaviour. -/
def getTokenUserpass (request_retries : Nat) (oracle : Nat → Bool) (ca0 : Bool) :
    SendResult :=
  tokenLoop request_retries oracle 3 0 ca0 []

theorem sendLoop_calls_extend (oracle : Nat → ReqOutcome) (fuel : Nat) (ca : Bool)
    (acc : List Bool) :
    ∃ ext, (sendLoop oracle fuel ca acc).calls = acc ++ ext := by
  induction fuel generalizing ca acc with
  | zero => exact ⟨[], by simp [sendLoop]⟩
  | succ fuel ih =>
      simp only [sendLoop]
      rcases oracle acc.length with _ | unauth
      · by_cases hf : fuel = 0
        · exact ⟨[ca], by simp [hf]⟩
        · obtain ⟨ext, hext⟩ := ih false (acc ++ [ca])
          refine ⟨[ca] ++ ext, ?_⟩
          simp only [if_neg hf]
          rw [hext, List.append_assoc]
      · rcases unauth with _ | _
        · exact ⟨[ca], by simp⟩
        · obtain ⟨ext, hext⟩ := ih ca (acc ++ [ca])
          refine ⟨[ca] ++ ext, ?_⟩
          simp only [if_pos]
          rw [hext, List.append_assoc]
theorem sendLoop_step_ssl_raise (oracle : Nat → ReqOutcome) (ca : Bool)
    (acc : List Bool) (ho : oracle acc.length = ReqOutcome.sslError) :
    sendLoop oracle (0 + 1) ca acc = ⟨acc ++ [ca], false, SendOutcome.raised⟩ := by
  simp only [sendLoop]
  rw [ho]
  rfl

theorem sendLoop_step_ssl (oracle : Nat → ReqOutcome) (fuel2 : Nat) (ca : Bool)
    (acc : List Bool) (ho : oracle acc.length = ReqOutcome.sslError) :
    sendLoop oracle (fuel2 + 1 + 1) ca acc =
      sendLoop oracle (fuel2 + 1) false (acc ++ [ca]) := by
  simp only [sendLoop]
  rw [ho]
  rfl

theorem sendLoop_step_ok_break (oracle : Nat → ReqOutcome) (fuel : Nat) (ca : Bool)
    (acc : List Bool) (ho : oracle acc.length = ReqOutcome.ok false) :
    sendLoop oracle (fuel + 1) ca acc = ⟨acc ++ [ca], ca, SendOutcome.returned⟩ := by
  simp only [sendLoop]
  rw [ho]
  rfl

theorem sendLoop_step_ok_retry (oracle : Nat → ReqOutcome) (fuel : Nat) (ca : Bool)
    (acc : List Bool) (ho : oracle acc.length = ReqOutcome.ok true) :
    sendLoop oracle (fuel + 1) ca acc = sendLoop oracle fuel ca (acc ++ [ca]) := by
  simp only [sendLoop]
  rw [ho]
  rfl

theorem sendLoop_false (oracle : Nat → ReqOutcome) (fuel : Nat) (acc : List Bool) :
    (sendLoop oracle fuel false acc).ca = false ∧
    ∀ j, acc.length ≤ j → j < (sendLoop oracle fuel false acc).calls.length →
      (sendLoop oracle fuel false acc).calls.getD j true = false := by
  induction fuel generalizing acc with
  | zero =>
      refine ⟨rfl, ?_⟩
      intro j h1 h2
      simp [sendLoop] at h2
      omega
  | succ fuel ih =>
      cases ho : oracle acc.length with
      | sslError =>
          rcases fuel with _ | fuel2
          · rw [sendLoop_step_ssl_raise oracle false acc ho]
            refine ⟨rfl, ?_⟩
            intro j h1 h2
            simp only [List.length_append, List.length_cons, List.length_nil] at h2
            have hj : j = acc.length := by omega
            subst hj
            show (acc ++ [false]).getD acc.length true = false
            rw [List.getD_append_right _ _ _ _ (le_refl _)]
            simp
          · rw [sendLoop_step_ssl oracle fuel2 false acc ho]
            refine ⟨(ih (acc ++ [false])).1, ?_⟩
            intro j h1 h2
            by_cases hj : acc.length + 1 ≤ j
            · exact (ih (acc ++ [false])).2 j (by simpa using hj) h2
            · have hj2 : j = acc.length := by omega
              subst hj2
              obtain ⟨ext, hext⟩ :=
                sendLoop_calls_extend oracle (fuel2 + 1) false (acc ++ [false])
              rw [hext, List.append_assoc,
                List.getD_append_right _ _ _ _ (le_refl _)]
              simp
      | ok unauth =>
          cases unauth with
          | false =>
              rw [sendLoop_step_ok_break oracle fuel false acc ho]
              refine ⟨rfl, ?_⟩
              intro j h1 h2
              simp only [List.length_append, List.length_cons, List.length_nil] at h2
              have hj : j = acc.length := by omega
              subst hj
              show (acc ++ [false]).getD acc.length true = false
              rw [List.getD_append_right _ _ _ _ (le_refl _)]
              simp
          | true =>
              rw [sendLoop_step_ok_retry oracle fuel false acc ho]
              refine ⟨(ih (acc ++ [false])).1, ?_⟩
              intro j h1 h2
              by_cases hj : acc.length + 1 ≤ j
              · exact (ih (acc ++ [false])).2 j (by simpa using hj) h2
              · have hj2 : j = acc.length := by omega
                subst hj2
                obtain ⟨ext, hext⟩ :=
                  sendLoop_calls_extend oracle fuel false (acc ++ [false])
                rw [hext, List.append_assoc,
                  List.getD_append_right _ _ _ _ (le_refl _)]
                simp

theorem sendLoop_ssl (oracle : Nat → ReqOutcome) (fuel : Nat) (ca : Bool)
    (acc : List Bool) (i : Nat) :
    acc.length ≤ i → oracle i = ReqOutcome.sslError →
    i < (sendLoop oracle fuel ca acc).calls.length →
    (sendLoop oracle fuel ca acc).ca = false ∧
    ∀ j, i < j → j < (sendLoop oracle fuel ca acc).calls.length →
      (sendLoop oracle fuel ca acc).calls.getD j true = false := by
  induction fuel generalizing ca acc i with
  | zero =>
      intro hi hssl hilen
      simp [sendLoop] at hilen
      omega
  | succ fuel ih =>
      intro hi hssl hilen
      cases ho : oracle acc.length with
      | sslError =>
          rcases fuel with _ | fuel2
          · rw [sendLoop_step_ssl_raise oracle ca acc ho] at hilen ⊢
            refine ⟨rfl, ?_⟩
            intro j hj1 hj2
            simp only [List.length_append, List.length_cons, List.length_nil] at hilen hj2
            omega
          · rw [sendLoop_step_ssl oracle fuel2 ca acc ho] at hilen ⊢
            refine ⟨(sendLoop_false oracle (fuel2 + 1) (acc ++ [ca])).1, ?_⟩
            intro j hj1 hj2
            refine (sendLoop_false oracle (fuel2 + 1) (acc ++ [ca])).2 j ?_ hj2
            simp only [List.length_append, List.length_cons, List.length_nil]
            omega
      | ok unauth =>
          cases unauth with
          | false =>
              rw [sendLoop_step_ok_break oracle fuel ca acc ho] at hilen
              exfalso
              simp only [List.length_append, List.length_cons, List.length_nil] at hilen
              have hieq : i = acc.length := by omega
              have h2 : oracle acc.length = ReqOutcome.sslError := hieq ▸ hssl
              rw [ho] at h2
              exact absurd h2 (by simp)
          | true =>
              rw [sendLoop_step_ok_retry oracle fuel ca acc ho] at hilen ⊢
              by_cases hieq : i = acc.length
              · exfalso
                have h2 : oracle acc.length = ReqOutcome.sslError := hieq ▸ hssl
                rw [ho] at h2
                exact absurd h2 (by simp)
              · refine ih ca (acc ++ [ca]) i ?_ hssl hilen
                simp only [List.length_append, List.length_cons, List.length_nil]
                omega

theorem sendLoop_raised (oracle : Nat → ReqOutcome) (fuel : Nat) (ca : Bool)
    (acc : List Bool) :
    (sendLoop oracle fuel ca acc).outcome = SendOutcome.raised →
    (sendLoop oracle fuel ca acc).calls.length = acc.length + fuel ∧
    oracle (acc.length + fuel - 1) = ReqOutcome.sslError := by
  induction fuel generalizing ca acc with
  | zero =>
      intro h
      simp [sendLoop] at h
  | succ fuel ih =>
      intro h
      cases ho : oracle acc.length with
      | sslError =>
          rcases fuel with _ | fuel2
          · rw [sendLoop_step_ssl_raise oracle ca acc ho] at h ⊢
            refine ⟨by simp, ?_⟩
            simpa using ho
          · rw [sendLoop_step_ssl oracle fuel2 ca acc ho] at h ⊢
            obtain ⟨hlen, hor⟩ := ih false (acc ++ [ca]) h
            constructor
            · rw [hlen]
              simp only [List.length_append, List.length_cons, List.length_nil]
              omega
            · have harith : (acc ++ [ca]).length + (fuel2 + 1) - 1 =
                  acc.length + (fuel2 + 1 + 1) - 1 := by
                simp only [List.length_append, List.length_cons, List.length_nil]
                omega
              rw [← harith]
              exact hor
      | ok unauth =>
          cases unauth with
          | false =>
              rw [sendLoop_step_ok_break oracle fuel ca acc ho] at h
              exact absurd h (by simp)
          | true =>
              rw [sendLoop_step_ok_retry oracle fuel ca acc ho] at h ⊢
              obtain ⟨hlen, hor⟩ := ih ca (acc ++ [ca]) h
              constructor
              · rw [hlen]
                simp only [List.length_append, List.length_cons, List.length_nil]
                omega
              · have harith : (acc ++ [ca]).length + fuel - 1 =
                    acc.length + (fuel + 1) - 1 := by
                  simp only [List.length_append, List.length_cons, List.length_nil]
                  omega
                rw [← harith]
                exact hor

theorem tokenLoop_step_raise (rr : Nat) (oracle : Nat → Bool) (fuel retry : Nat)
    (ca : Bool) (acc : List Bool) (ho : oracle acc.length = true)
    (hr : rr < retry + 1) :
    tokenLoop rr oracle (fuel + 1) retry ca acc =
      ⟨acc ++ [ca], false, SendOutcome.raised⟩ := by
  simp only [tokenLoop]
  rw [ho, if_pos hr]
  rfl

theorem tokenLoop_step_retry (rr : Nat) (oracle : Nat → Bool) (fuel retry : Nat)
    (ca : Bool) (acc : List Bool) (ho : oracle acc.length = true)
    (hr : ¬rr < retry + 1) :
    tokenLoop rr oracle (fuel + 1) retry ca acc =
      tokenLoop rr oracle fuel (retry + 1) false (acc ++ [ca]) := by
  simp only [tokenLoop]
  rw [ho, if_neg hr]
  rfl

theorem tokenLoop_step_break (rr : Nat) (oracle : Nat → Bool) (fuel retry : Nat)
    (ca : Bool) (acc : List Bool) (ho : oracle acc.length = false) :
    tokenLoop rr oracle (fuel + 1) retry ca acc =
      ⟨acc ++ [ca], ca, SendOutcome.returned⟩ := by
  simp only [tokenLoop]
  rw [ho]
  rfl

theorem tokenLoop_calls_extend (rr : Nat) (oracle : Nat → Bool) (fuel retry : Nat)
    (ca : Bool) (acc : List Bool) :
    ∃ ext, (tokenLoop rr oracle fuel retry ca acc).calls = acc ++ ext := by
  induction fuel generalizing retry ca acc with
  | zero => exact ⟨[], by simp [tokenLoop]⟩
  | succ fuel ih =>
      cases ho : oracle acc.length with
      | false =>
          exact ⟨[ca], by rw [tokenLoop_step_break rr oracle fuel retry ca acc ho]⟩
      | true =>
          by_cases hr : rr < retry + 1
          · exact ⟨[ca], by rw [tokenLoop_step_raise rr oracle fuel retry ca acc ho hr]⟩
          · obtain ⟨ext, hext⟩ := ih (retry + 1) false (acc ++ [ca])
            refine ⟨[ca] ++ ext, ?_⟩
            rw [tokenLoop_step_retry rr oracle fuel retry ca acc ho hr, hext,
              List.append_assoc]

theorem tokenLoop_false (rr : Nat) (oracle : Nat → Bool) (fuel retry : Nat)
    (acc : List Bool) :
    (tokenLoop rr oracle fuel retry false acc).ca = false ∧
    ∀ j, acc.length ≤ j → j < (tokenLoop rr oracle fuel retry false acc).calls.length →
      (tokenLoop rr oracle fuel retry false acc).calls.getD j true = false := by
  induction fuel generalizing retry acc with
  | zero =>
      refine ⟨rfl, ?_⟩
      intro j h1 h2
      simp [tokenLoop] at h2
      omega
  | succ fuel ih =>
      cases ho : oracle acc.length with
      | false =>
          rw [tokenLoop_step_break rr oracle fuel retry false acc ho]
          refine ⟨rfl, ?_⟩
          intro j h1 h2
          simp only [List.length_append, List.length_cons, List.length_nil] at h2
          have hj : j = acc.length := by omega
          subst hj
          show (acc ++ [false]).getD acc.length true = false
          rw [List.getD_append_right _ _ _ _ (le_refl _)]
          simp
      | true =>
          by_cases hr : rr < retry + 1
          · rw [tokenLoop_step_raise rr oracle fuel retry false acc ho hr]
            refine ⟨rfl, ?_⟩
            intro j h1 h2
            simp only [List.length_append, List.length_cons, List.length_nil] at h2
            have hj : j = acc.length := by omega
            subst hj
            show (acc ++ [false]).getD acc.length true = false
            rw [List.getD_append_right _ _ _ _ (le_refl _)]
            simp
          · rw [tokenLoop_step_retry rr oracle fuel retry false acc ho hr]
            refine ⟨(ih (retry + 1) (acc ++ [false])).1, ?_⟩
            intro j h1 h2
            by_cases hj : acc.length + 1 ≤ j
            · exact (ih (retry + 1) (acc ++ [false])).2 j (by simpa using hj) h2
            · have hj2 : j = acc.length := by omega
              subst hj2
              obtain ⟨ext, hext⟩ :=
                tokenLoop_calls_extend rr oracle fuel (retry + 1) false (acc ++ [false])
              rw [hext, List.append_assoc,
                List.getD_append_right _ _ _ _ (le_refl _)]
              simp

theorem tokenLoop_ssl (rr : Nat) (oracle : Nat → Bool) (fuel retry : Nat)
    (ca : Bool) (acc : List Bool) (i : Nat) :
    acc.length ≤ i → oracle i = true →
    i < (tokenLoop rr oracle fuel retry ca acc).calls.length →
    (tokenLoop rr oracle fuel retry ca acc).ca = false ∧
    ∀ j, i < j → j < (tokenLoop rr oracle fuel retry ca acc).calls.length →
      (tokenLoop rr oracle fuel retry ca acc).calls.getD j true = false := by
  induction fuel generalizing retry ca acc i with
  | zero =>
      intro hi hssl hilen
      simp [tokenLoop] at hilen
      omega
  | succ fuel ih =>
      intro hi hssl hilen
      cases ho : oracle acc.length with
      | false =>
          rw [tokenLoop_step_break rr oracle fuel retry ca acc ho] at hilen
          exfalso
          simp only [List.length_append, List.length_cons, List.length_nil] at hilen
          have hieq : i = acc.length := by omega
          have h2 : oracle acc.length = true := hieq ▸ hssl
          rw [ho] at h2
          exact absurd h2 (by simp)
      | true =>
          by_cases hr : rr < retry + 1
          · rw [tokenLoop_step_raise rr oracle fuel retry ca acc ho hr] at hilen ⊢
            refine ⟨rfl, ?_⟩
            intro j hj1 hj2
            simp only [List.length_append, List.length_cons, List.length_nil] at hilen hj2
            omega
          · rw [tokenLoop_step_retry rr oracle fuel retry ca acc ho hr] at hilen ⊢
            refine ⟨(tokenLoop_false rr oracle fuel (retry + 1) (acc ++ [ca])).1, ?_⟩
            intro j hj1 hj2
            refine (tokenLoop_false rr oracle fuel (retry + 1) (acc ++ [ca])).2 j ?_ hj2
            simp only [List.length_append, List.length_cons, List.length_nil]
            omega

theorem tokenLoop_raised (rr : Nat) (oracle : Nat → Bool) (fuel retry : Nat)
    (ca : Bool) (acc : List Bool) :
    acc.length = retry → (retry = 0 ∨ retry ≤ rr) →
    (tokenLoop rr oracle fuel retry ca acc).outcome = SendOutcome.raised →
    (tokenLoop rr oracle fuel retry ca acc).calls.length = rr + 1 := by
  induction fuel generalizing retry ca acc with
  | zero =>
      intro _ _ h
      simp [tokenLoop] at h
  | succ fuel ih =>
      intro hlen hinv h
      cases ho : oracle acc.length with
      | false =>
          rw [tokenLoop_step_break rr oracle fuel retry ca acc ho] at h
          exact absurd h (by simp)
      | true =>
          by_cases hr : rr < retry + 1
          · rw [tokenLoop_step_raise rr oracle fuel retry ca acc ho hr] at h ⊢
            show (acc ++ [ca]).length = rr + 1
            simp only [List.length_append, List.length_cons, List.length_nil]
            omega
          · rw [tokenLoop_step_retry rr oracle fuel retry ca acc ho hr] at h ⊢
            refine ih (retry + 1) false (acc ++ [ca]) ?_ ?_ h
            · simp [hlen]
            · right
              omega

/-- C9: in _send_request and in __get_token_userpass, every caught SSLError
sets self.ca_cert to False before retrying, so every later HTTPS call of the
session runs with verification disabled and the client ends with ca_cert
False; and the SSLError is re-raised only once the retry counter exceeds the
configured request_retries limit (after exactly request_retries + 1 attempts,
the last of which failed with SSLError). -/
theorem c9_ssl_disables_verification (rr : Nat) (oracle : Nat → ReqOutcome)
    (oracleT : Nat → Bool) (ca0 caT : Bool) :
    (∀ i, i < (sendRequest rr oracle ca0).calls.length →
      oracle i = ReqOutcome.sslError →
      (sendRequest rr oracle ca0).ca = false ∧
      ∀ j, i < j → j < (sendRequest rr oracle ca0).calls.length →
        (sendRequest rr oracle ca0).calls.getD j true = false) ∧
    ((sendRequest rr oracle ca0).outcome = SendOutcome.raised →
      (sendRequest rr oracle ca0).calls.length = rr + 1 ∧
      oracle rr = ReqOutcome.sslError) ∧
    (∀ i, i < (getTokenUserpass rr oracleT caT).calls.length → oracleT i = true →
      (getTokenUserpass rr oracleT caT).ca = false ∧
      ∀ j, i < j → j < (getTokenUserpass rr oracleT caT).calls.length →
        (getTokenUserpass rr oracleT caT).calls.getD j true = false) ∧
    ((getTokenUserpass rr oracleT caT).outcome = SendOutcome.raised →
      (getTokenUserpass rr oracleT caT).calls.length = rr + 1) := by
  refine ⟨?_, ?_, ?_, ?_⟩
  · intro i hilen hssl
    exact sendLoop_ssl oracle (rr + 1) ca0 [] i (Nat.zero_le i) hssl hilen
  · intro h
    obtain ⟨hlen, hor⟩ := sendLoop_raised oracle (rr + 1) ca0 [] h
    refine ⟨by simpa using hlen, ?_⟩
    simpa using hor
  · intro i hilen hssl
    exact tokenLoop_ssl rr oracleT 3 0 caT [] i (Nat.zero_le i) hssl hilen
  · intro h
    exact tokenLoop_raised rr oracleT 3 0 caT [] rfl (Or.inl rfl) h

/-- C9 witness: with request_retries = 1 and every call failing with SSLError,
_send_request performs two calls, the second already without verification,
ends with ca_cert False and re-raises after the counter exceeds the limit;
the userpass token loop behaves identically. -/
theorem c9_ssl_disables_verification_witness :
    (sendRequest 1 (fun _ => ReqOutcome.sslError) true).calls.getD 1 true = false ∧
    (sendRequest 1 (fun _ => ReqOutcome.sslError) true).ca = false ∧
    (sendRequest 1 (fun _ => ReqOutcome.sslError) true).calls.length = 2 ∧
    (getTokenUserpass 1 (fun _ => true) true).calls.length = 2 :=
  ⟨((c9_ssl_disables_verification 1 (fun _ => ReqOutcome.sslError)
        (fun _ => true) true true).1 0 (by decide) rfl).2 1 (by decide) (by decide),
   ((c9_ssl_disables_verification 1 (fun _ => ReqOutcome.sslError)
        (fun _ => true) true true).1 0 (by decide) rfl).1,
   ((c9_ssl_disables_verification 1 (fun _ => ReqOutcome.sslError)
        (fun _ => true) true true).2.1 (by decide)).1,
   (c9_ssl_disables_verification 1 (fun _ => ReqOutcome.sslError)
        (fun _ => true) true true).2.2.2 (by decide)⟩

/-! ## Base client: memoized host selection -/

/-- The dogpile.cache memory region of baseclient.py keyed on the function
arguments: argument list to cached value and creation time. -/
abbrev HostCache := List (List String × (String × Nat))

/-- Lookup of the cache entry stored for an argument key. -/
def cacheLookup (c : HostCache) (k : List String) : Option (String × Nat) :=
  (c.find? (fun e => decide (e.1 = k))).map (fun e => e.2)

/-- The module-level choice(hosts) of baseclient.py: documented as selecting a
host randomly, but decorated with REGION.cache_on_arguments over a memory
region with expiration_time 60 — a fresh cached value is returned as-is and
only a missing or expired entry triggers a new random draw, which is stored
with its creation time. -/
def choice (expiration : Nat) (rand : List String → String) (now : Nat)
    (c : HostCache) (hosts : List String) : String × HostCache :=
  match cacheLookup c hosts with
  | some (v, t) =>
      if now < t + expiration then (v, c)
      else (rand hosts, (hosts, (rand hosts, now)) :: c)
  | none => (rand hosts, (hosts, (rand hosts, now)) :: c)

/-- C10: for every host list, two calls of choice with equal arguments inside
the 60-second expiration window return the same host — the first call draws
randomly and stores the value, and the second returns the stored host
regardless of its own random source, rather than making an independent draw. -/
theorem c10_choice_memoized (rand1 rand2 : List String → String) (t1 t2 : Nat)
    (c : HostCache) (hosts : List String)
    (hmiss : cacheLookup c hosts = none) (hwin : t2 < t1 + 60) :
    (choice 60 rand1 t1 c hosts).1 = rand1 hosts ∧
    (choice 60 rand2 t2 (choice 60 rand1 t1 c hosts).2 hosts).1 = rand1 hosts := by
  have hfirst : choice 60 rand1 t1 c hosts =
      (rand1 hosts, (hosts, (rand1 hosts, t1)) :: c) := by
    unfold choice
    rw [hmiss]
  refine ⟨by rw [hfirst], ?_⟩
  rw [hfirst]
  have hhit : cacheLookup ((hosts, (rand1 hosts, t1)) :: c) hosts =
      some (rand1 hosts, t1) := by
    simp [cacheLookup, List.find?]
  unfold choice
  rw [hhit]
  dsimp only
  rw [if_pos hwin]

/-- C10 witness: with the first draw returning one host and the second random
source returning a different one, a second call 59 seconds later still returns
the first host. -/
theorem c10_choice_memoized_witness :
    (choice 60 (fun _ => "a") 0 [] ["h1", "h2"]).1 = "a" ∧
    (choice 60 (fun _ => "b") 59
        (choice 60 (fun _ => "a") 0 [] ["h1", "h2"]).2 ["h1", "h2"]).1 = "a" :=
  c10_choice_memoized (fun _ => "a") (fun _ => "b") 0 59 [] ["h1", "h2"]
    rfl (by decide)

end Rucio
